import Mathlib

/-!
Verification of the montage real-time voice-effects processor.

Shallow embedding of the DSP pipeline (src/dsp.rs) and the audio session
orchestration (src/audio.rs).  Samples are modelled as exact rationals (ℚ);
the platform sine function used by the crossfade oscillator is an opaque
parameter of the step function, since none of the verified properties
depend on its values.  Mutex lock attempts are modelled by `Option`
arguments: `some v` is a successful acquisition observing value `v`,
`none` is a failed / poisoned acquisition.
-/

namespace Montage

/-- State of `DspProcessor` (src/dsp.rs lines 3-24).  The `pitch`
`Arc<Mutex<f32>>` field is externalized: each `process` call receives the
result of locking it as an `Option ℚ` argument. -/
structure DspProcessor where
  ring_buffer_a : List ℚ
  ring_buffer_b : List ℚ
  write_index : ℕ
  read_index_a : ℚ
  read_index_b : ℚ
  crossfade_pos : ℚ
  crossfade_step : ℚ
  filter_state_1 : ℚ
  filter_state_2 : ℚ
  dc_filter_x : ℚ
  dc_filter_y : ℚ
  current_pitch : ℚ
  target_pitch : ℚ
  deriving Repr, DecidableEq

/-- Constructor `DspProcessor::new` (src/dsp.rs lines 27-44): 128-sample zeroed ring
buffers, read cursors at 0.0 and 1024.0, crossfade step 0.005. -/
def DspProcessor.new : DspProcessor where
  ring_buffer_a := List.replicate 128 0
  ring_buffer_b := List.replicate 128 0
  write_index := 0
  read_index_a := 0
  read_index_b := 1024
  crossfade_pos := 0
  crossfade_step := 0.005
  filter_state_1 := 0
  filter_state_2 := 0
  dc_filter_x := 0
  dc_filter_y := 0
  current_pitch := 1
  target_pitch := 1

/-- Rust `f32::clamp(lo, hi)`: below `lo` gives `lo`, above `hi` gives
`hi`, otherwise the value itself. -/
def rustClamp (x lo hi : ℚ) : ℚ :=
  if x < lo then lo else if hi < x then hi else x

/-- src/dsp.rs lines 49-55: reading the shared pitch through the mutex;
on success the value is clamped to [0.5, 2.0], on failure the default 1.0
is substituted (and a diagnostic is printed). -/
def readTargetPitch (lockResult : Option ℚ) : ℚ :=
  match lockResult with
  | some p => rustClamp p 0.5 2.0
  | none => 1.0

/-- Method `DspProcessor::multi_stage_filter` (src/dsp.rs lines 123-129):
two-stage one-pole low-pass; returns the updated state and the filtered
sample. -/
def DspProcessor.multi_stage_filter (st : DspProcessor) (input : ℚ) :
    DspProcessor × ℚ :=
  let s1 := st.filter_state_1 * 0.85 + input * 0.15
  let s2 := st.filter_state_2 * 0.9 + s1 * 0.1
  ({ st with filter_state_1 := s1, filter_state_2 := s2 }, s2)

/-- The four tap indices computed by `cubic_interpolated_read`
(src/dsp.rs lines 137-140), each reduced modulo the buffer length. -/
def cubicTaps (buffer : List ℚ) (read_index : ℚ) : List ℕ :=
  let index : ℕ := (⌊read_index⌋).toNat
  [(index + buffer.length - 1) % buffer.length,
   index % buffer.length,
   (index + 1) % buffer.length,
   (index + 2) % buffer.length]

/-- Method `DspProcessor::cubic_interpolated_read` (src/dsp.rs lines 132-154):
Catmull-Rom cubic interpolation over four neighbouring cells, indices
reduced modulo the buffer length.  Out-of-range accesses (impossible for
a non-empty buffer) fall back to the default `d`; the source function
would panic there, and the parameter lets us state that the default is
never consulted. -/
def cubicInterpolatedReadD (d : ℚ) (buffer : List ℚ) (read_index : ℚ) : ℚ :=
  let index : ℕ := (⌊read_index⌋).toNat
  let fraction : ℚ := read_index - ⌊read_index⌋
  let i0 := (index + buffer.length - 1) % buffer.length
  let i1 := index % buffer.length
  let i2 := (index + 1) % buffer.length
  let i3 := (index + 2) % buffer.length
  let y0 := buffer.getD i0 d
  let y1 := buffer.getD i1 d
  let y2 := buffer.getD i2 d
  let y3 := buffer.getD i3 d
  let a := -0.5 * y0 + 1.5 * y1 - 1.5 * y2 + 0.5 * y3
  let b := y0 - 2.5 * y1 + 2.0 * y2 - 0.5 * y3
  let c := -0.5 * y0 + 0.5 * y2
  ((a * fraction + b) * fraction + c) * fraction + y1

/-- The interpolated read as executed by the program (buffer accesses in
bounds, default irrelevant). -/
def DspProcessor.cubic_interpolated_read (buffer : List ℚ) (read_index : ℚ) : ℚ :=
  cubicInterpolatedReadD 0 buffer read_index

/-- Method `DspProcessor::dc_blocking_filter` (src/dsp.rs lines 157-162). -/
def DspProcessor.dc_blocking_filter (st : DspProcessor) (input : ℚ) :
    DspProcessor × ℚ :=
  let output := input - st.dc_filter_x + 0.995 * st.dc_filter_y
  ({ st with dc_filter_x := input, dc_filter_y := output }, output)

/-- Method `DspProcessor::advanced_soft_compress` (src/dsp.rs lines 165-189):
soft-knee compressor with threshold 0.7, ratio 0.3, knee width 0.1. -/
def DspProcessor.advanced_soft_compress (input : ℚ) : ℚ :=
  let threshold : ℚ := 0.7
  let ratio : ℚ := 0.3
  let knee_width : ℚ := 0.1
  let abs_input := |input|
  let sign : ℚ := if 0 ≤ input then 1 else -1
  if abs_input ≤ threshold - knee_width then
    input
  else if threshold + knee_width ≤ abs_input then
    let excess := abs_input - threshold
    let compressed_excess := excess * ratio
    sign * (threshold + compressed_excess)
  else
    let knee_ratio := (abs_input - (threshold - knee_width)) / (2 * knee_width)
    let smooth_ratio := knee_ratio * knee_ratio * (3 - 2 * knee_ratio)
    let current_ratio := 1 - smooth_ratio * (1 - ratio)
    let excess := abs_input - threshold
    sign * (threshold + excess * current_ratio)

/-- The knee-branch formula of the compressor, as a function of the input
amplitude `u = |x|` (src/dsp.rs lines 181-188). -/
def compressKnee (u : ℚ) : ℚ :=
  let knee_ratio := (u - (0.7 - 0.1)) / (2 * 0.1)
  let smooth_ratio := knee_ratio * knee_ratio * (3 - 2 * knee_ratio)
  let current_ratio := 1 - smooth_ratio * (1 - 0.3)
  0.7 + (u - 0.7) * current_ratio

/-- The above-knee formula of the compressor, as a function of the input
amplitude `u = |x|` (src/dsp.rs lines 176-180). -/
def compressAbove (u : ℚ) : ℚ :=
  0.7 + (u - 0.7) * 0.3

/-- One iteration of the per-sample loop of `DspProcessor::process`
(src/dsp.rs lines 60-114).  `sinQ` stands for the platform sine used by
the crossfade oscillator and `twoPi` for `2 * std::f32::consts::PI`;
both are opaque parameters of the model. -/
def DspProcessor.processOneSample (sinQ : ℚ → ℚ) (twoPi : ℚ)
    (st : DspProcessor) (in_sample : ℚ) : DspProcessor × ℚ :=
  let current_pitch := st.current_pitch + (st.target_pitch - st.current_pitch) * 0.01
  let st := { st with current_pitch := current_pitch }
  let (st, filtered_input) := st.multi_stage_filter in_sample
  let ringA := st.ring_buffer_a.set st.write_index filtered_input
  let ringB := st.ring_buffer_b.set st.write_index filtered_input
  let write_index := (st.write_index + 1) % ringA.length
  let st := { st with ring_buffer_a := ringA, ring_buffer_b := ringB,
                      write_index := write_index }
  let read_step := 1 / st.current_pitch
  let ra := st.read_index_a + read_step
  let rb := st.read_index_b + read_step
  let ra := if (st.ring_buffer_a.length : ℚ) ≤ ra then ra - st.ring_buffer_a.length else ra
  let rb := if (st.ring_buffer_b.length : ℚ) ≤ rb then rb - st.ring_buffer_b.length else rb
  let st := { st with read_index_a := ra, read_index_b := rb }
  let sample_a := DspProcessor.cubic_interpolated_read st.ring_buffer_a st.read_index_a
  let sample_b := DspProcessor.cubic_interpolated_read st.ring_buffer_b st.read_index_b
  let crossfade_weight := (sinQ st.crossfade_pos + 1) * 0.5
  let crossfaded_sample := sample_a * (1 - crossfade_weight) + sample_b * crossfade_weight
  let cp := st.crossfade_pos + st.crossfade_step
  let cp := if twoPi ≤ cp then cp - twoPi else cp
  let st := { st with crossfade_pos := cp }
  let (st, dc_blocked) := st.dc_blocking_filter crossfaded_sample
  let compressed_sample := DspProcessor.advanced_soft_compress dc_blocked
  let dry_wet_mix : ℚ := 0.8
  let mixed_sample := compressed_sample * dry_wet_mix + filtered_input * (1 - dry_wet_mix)
  (st, mixed_sample)

/-- The writing loop of `DspProcessor::process`: processes each input
sample in order and overwrites the output buffer position `i` with the
result (src/dsp.rs lines 60-114). -/
def processWriteLoop (sinQ : ℚ → ℚ) (twoPi : ℚ) :
    DspProcessor → List ℚ → ℕ → List ℚ → DspProcessor × List ℚ
  | st, [], _, out => (st, out)
  | st, x :: rest, i, out =>
    let (st', y) := DspProcessor.processOneSample sinQ twoPi st x
    processWriteLoop sinQ twoPi st' rest (i + 1) (out.set i y)

/-- src/dsp.rs lines 117-119: overwrite every output position from `n`
on with silence. -/
def zeroFillFrom (n : ℕ) (out : List ℚ) : List ℚ :=
  out.take n ++ List.replicate (out.length - n) 0

/-- Method `DspProcessor::process` (src/dsp.rs lines 47-120): read (and clamp)
the shared pitch, run the per-sample loop over the first
`min input.length output.length` samples, zero-fill the rest of the
output buffer. -/
def DspProcessor.process (sinQ : ℚ → ℚ) (twoPi : ℚ) (pitchLock : Option ℚ)
    (st : DspProcessor) (input : List ℚ) (output : List ℚ) :
    DspProcessor × List ℚ :=
  let st := { st with target_pitch := readTargetPitch pitchLock }
  let process_len := min input.length output.length
  let (st', out') := processWriteLoop sinQ twoPi st (input.take process_len) 0 output
  (st', zeroFillFrom process_len out')

/-! ## Session orchestration (src/audio.rs) -/

/-- The settings record shared between GUI and session
(src/gui.rs lines 50-55). -/
structure AudioSettings where
  pitch : ℚ
  sample_rate : ℕ
  buffer_size : ℕ
  delay_ms : ℚ
  deriving Repr, DecidableEq

/-- src/audio.rs line 34: `(sample_rate as f32 * 0.1) as usize`, the
fixed delay-line capacity (100 ms worth of samples). -/
def maxDelaySamples (sample_rate : ℕ) : ℕ :=
  (⌊(sample_rate : ℚ) * 0.1⌋).toNat

/-- src/audio.rs lines 95-96: delay length in samples computed from the
snapshot, `((delay_ms / 1000.0) * sample_rate as f32) as usize` (the
`as usize` cast truncates), capped at the delay line's capacity. -/
def delaySamplesOf (delay_ms : ℚ) (sample_rate : ℕ) (cap : ℕ) : ℕ :=
  min ((⌊delay_ms / 1000 * sample_rate⌋).toNat) cap

/-- One push/pop iteration of the delay loop (src/audio.rs lines
110-119): push the processed sample at the tail; if the deque length now
exceeds the configured delay, pop the head as the emitted sample,
otherwise emit silence.  The deque head is the list head. -/
def delayStep (delay_samples : ℕ) (q : List ℚ) (sample : ℚ) : List ℚ × ℚ :=
  let q := q ++ [sample]
  if delay_samples < q.length then (q.tail, q.headD 0) else (q, 0)

/-- One iteration of the no-input drain loop (src/audio.rs lines
149-154): pop the head when the deque length exceeds the configured
delay, otherwise emit silence; nothing is pushed. -/
def drainStep (delay_samples : ℕ) (q : List ℚ) : List ℚ × ℚ :=
  if delay_samples < q.length then (q.tail, q.headD 0) else (q, 0)

/-- The delay loop over a whole block, collecting the emitted samples in
order (src/audio.rs lines 110-119 viewed as a stream transformer). -/
def delayRun (delay_samples : ℕ) : List ℚ → List ℚ → List ℚ × List ℚ
  | q, [] => (q, [])
  | q, x :: rest =>
    let (q', y) := delayStep delay_samples q x
    let (q'', ys) := delayRun delay_samples q' rest
    (q'', y :: ys)

/-- src/audio.rs lines 56-67: split an interleaved block into frames of
`n` samples (Rust `chunks`); the last frame may be shorter. -/
def toFrames (n : ℕ) (l : List ℚ) : List (List ℚ) :=
  if h : n = 0 ∨ l = [] then []
  else l.take n :: toFrames n (l.drop n)
  termination_by l.length
  decreasing_by
    simp only [not_or] at h
    simp only [List.length_drop]
    exact Nat.sub_lt (List.length_pos.mpr h.2) (Nat.pos_of_ne_zero h.1)

/-- src/audio.rs lines 60-64: downmix one frame to mono — average the
first two samples when the channel count is exactly two (and the frame
is full), otherwise pass the first sample through. -/
def downmixFrame (channels : ℕ) (frame : List ℚ) : ℚ :=
  if channels = 2 ∧ 2 ≤ frame.length then
    (frame.getD 0 0 + frame.getD 1 0) * 0.5
  else
    frame.getD 0 0

/-- The input-stream (capture) callback body (src/audio.rs lines 55-70):
build the mono block from the non-empty frames of the interleaved data.
The subsequent `tx.try_send(buffer)` is modelled by `trySend`. -/
def captureCallback (channels : ℕ) (data : List ℚ) : List ℚ :=
  ((toFrames channels data).filter (fun f => !f.isEmpty)).map (downmixFrame channels)

/-- The bounded bridge channel (src/audio.rs line 50,
`sync_channel::<Vec<f32>>(4)`) as a FIFO queue with `try_send` semantics:
enqueue at the tail when below capacity, silently drop otherwise. -/
def trySend (cap : ℕ) (q : List (List ℚ)) (x : List ℚ) : List (List ℚ) :=
  if q.length < cap then q ++ [x] else q

/-- Mutable state threaded through the output callback: the DSP
processor, the delay deque, and the pitch mirror cell `pitch_ref`. -/
structure SessionState where
  dsp : DspProcessor
  delay_buffer : List ℚ
  pitch_ref : ℚ
  deriving Repr, DecidableEq

/-- The delay loop combined with the stereo writes of src/audio.rs lines
110-128: emitted sample `i` is written to output positions `2*i` and
`2*i+1` under the source's bounds guards. -/
def delayWriteLoop (delay_samples : ℕ) :
    List ℚ → List ℚ → ℕ → List ℚ → List ℚ × List ℚ
  | q, [], _, out => (q, out)
  | q, x :: rest, i, out =>
    let (q', d) := delayStep delay_samples q x
    let out :=
      if 2 * i < out.length then
        let out1 := out.set (2 * i) d
        if 2 * i + 1 < out1.length then out1.set (2 * i + 1) d else out1
      else out
    delayWriteLoop delay_samples q' rest (i + 1) out

/-- The no-input branch of the output callback (src/audio.rs lines
147-163): for each of the `output.len() / 2` frames, drain one delayed
sample (or silence) and write it to both channels. -/
def drainWriteLoop (delay_samples : ℕ) :
    ℕ → ℕ → List ℚ → List ℚ → List ℚ × List ℚ
  | 0, _, q, out => (q, out)
  | n + 1, i, q, out =>
    let (q', d) := drainStep delay_samples q
    let out :=
      if 2 * i < out.length then
        let out1 := out.set (2 * i) d
        if 2 * i + 1 < out1.length then out1.set (2 * i + 1) d else out1
      else out
    drainWriteLoop delay_samples n (i + 1) q' out

/-- The output-stream (render) callback body (src/audio.rs lines
79-164).  `settingsLock` is the result of `settings.try_lock()`
(`none` = contended: the callback returns at once, leaving the output
block exactly as it was); `pitchLockOk` is whether `pitch_ref.try_lock()`
succeeded; `rx` is the result of `rx.try_recv()`.  Returns the updated
session state and the output buffer. -/
def renderCallback (sinQ : ℚ → ℚ) (twoPi : ℚ) (sample_rate : ℕ)
    (max_delay_samples : ℕ) (settingsLock : Option AudioSettings)
    (pitchLockOk : Bool) (rx : Option (List ℚ)) (st : SessionState)
    (output : List ℚ) : SessionState × List ℚ :=
  match settingsLock with
  | none => (st, output)
  | some current_settings =>
    let pitch_ref :=
      if pitchLockOk then current_settings.pitch else st.pitch_ref
    let delay_samples :=
      delaySamplesOf current_settings.delay_ms sample_rate max_delay_samples
    match rx with
    | some input_buffer =>
      if input_buffer.isEmpty then
        ({ st with pitch_ref := pitch_ref }, output.map (fun _ => 0))
      else
        let process_len := min output.length (input_buffer.length * 2)
        let mono_len := process_len / 2
        if 0 < mono_len then
          let (dsp', processed) :=
            DspProcessor.process sinQ twoPi (some pitch_ref) st.dsp
              (input_buffer.take mono_len) (List.replicate mono_len 0)
          let (delay', out) :=
            delayWriteLoop delay_samples st.delay_buffer processed 0 output
          let out := zeroFillFrom (mono_len * 2) out
          ({ dsp := dsp', delay_buffer := delay', pitch_ref := pitch_ref }, out)
        else
          ({ st with pitch_ref := pitch_ref }, output.map (fun _ => 0))
    | none =>
      let (delay', out) :=
        drainWriteLoop delay_samples (output.length / 2) 0 st.delay_buffer output
      ({ st with delay_buffer := delay', pitch_ref := pitch_ref }, out)

/-- The degenerate-crossfade invariant of the engine state: both ring
buffers hold identical content (they receive identical writes), are 128
samples long, and the two read cursors differ by an exact natural
multiple of the buffer length — i.e. they sit at the same phase modulo
the buffer length, so both interpolated taps read the same cells. -/
def phaseLocked (st : DspProcessor) : Prop :=
  st.ring_buffer_a = st.ring_buffer_b ∧
  st.ring_buffer_a.length = 128 ∧
  0 ≤ st.read_index_a ∧
  (∃ k : ℕ, st.read_index_b = st.read_index_a + 128 * k) ∧
  1 / 2 ≤ st.current_pitch ∧ st.current_pitch ≤ 2

/-! ## Helper lemmas -/

lemma processOneSample_target_pitch (sinQ : ℚ → ℚ) (twoPi : ℚ)
    (st : DspProcessor) (x : ℚ) :
    ((DspProcessor.processOneSample sinQ twoPi st x).1).target_pitch =
      st.target_pitch := by
  simp [DspProcessor.processOneSample, DspProcessor.multi_stage_filter,
    DspProcessor.dc_blocking_filter]

lemma processWriteLoop_target_pitch (sinQ : ℚ → ℚ) (twoPi : ℚ) :
    ∀ (input : List ℚ) (st : DspProcessor) (i : ℕ) (out : List ℚ),
    ((processWriteLoop sinQ twoPi st input i out).1).target_pitch =
      st.target_pitch
  | [], _, _, _ => rfl
  | x :: rest, st, i, out => by
    rw [processWriteLoop]
    rw [processWriteLoop_target_pitch sinQ twoPi rest]
    exact processOneSample_target_pitch sinQ twoPi st x

lemma processWriteLoop_length (sinQ : ℚ → ℚ) (twoPi : ℚ) :
    ∀ (input : List ℚ) (st : DspProcessor) (i : ℕ) (out : List ℚ),
    ((processWriteLoop sinQ twoPi st input i out).2).length = out.length
  | [], _, _, _ => rfl
  | x :: rest, st, i, out => by
    rw [processWriteLoop]
    rw [processWriteLoop_length sinQ twoPi rest]
    exact List.length_set out i _

lemma zeroFillFrom_length (n : ℕ) (out : List ℚ) :
    (zeroFillFrom n out).length = out.length := by
  simp [zeroFillFrom]
  omega

lemma zeroFillFrom_getElem? (n : ℕ) (out : List ℚ) (i : ℕ)
    (hni : n ≤ i) (hi : i < out.length) :
    (zeroFillFrom n out)[i]? = some 0 := by
  unfold zeroFillFrom
  rw [List.getElem?_append_right (by simp [List.length_take]; omega)]
  rw [List.getElem?_replicate]
  rw [if_pos (by simp [List.length_take]; omega)]

lemma getD_mod_default (l : List ℚ) (h : l ≠ []) (x : ℕ) (d : ℚ) :
    l.getD (x % l.length) d = l.getD (x % l.length) 0 := by
  have hl : 0 < l.length := List.length_pos.mpr h
  have hx := Nat.mod_lt x hl
  simp [List.getD_eq_getElem?_getD, List.getElem?_eq_getElem hx]

/-! ## Claims -/

/-- C3: on every call to `process` the engine reads the shared pitch
ratio and clamps it to [0.5, 2.0] (5.0 is observed as 2.0, 0.1 as 0.5);
if the pitch-ratio source is unavailable it substitutes 1.0 instead of
propagating an error. -/
theorem pitch_read_clamped_with_fallback :
    (∀ (sinQ : ℚ → ℚ) (twoPi : ℚ) (lock : Option ℚ) (st : DspProcessor)
       (input output : List ℚ),
       ((DspProcessor.process sinQ twoPi lock st input output).1).target_pitch =
         readTargetPitch lock) ∧
    readTargetPitch (some 5) = 2 ∧
    readTargetPitch (some 0.1) = 0.5 ∧
    (∀ p : ℚ, 0.5 ≤ readTargetPitch (some p) ∧ readTargetPitch (some p) ≤ 2) ∧
    readTargetPitch none = 1 := by
  refine ⟨?_, by norm_num [readTargetPitch, rustClamp], by
    norm_num [readTargetPitch, rustClamp], ?_, by norm_num [readTargetPitch]⟩
  · intro sinQ twoPi lock st input output
    unfold DspProcessor.process
    rw [processWriteLoop_target_pitch]
  · intro p
    have h : readTargetPitch (some p) = rustClamp p 0.5 2.0 := rfl
    rw [h]
    unfold rustClamp
    split_ifs with h1 h2
    · norm_num
    · norm_num
    · norm_num at h1 h2 ⊢
      exact ⟨by linarith, by linarith⟩

/-- C8: `process` writes processed samples only into the first
`min input.length output.length` positions and sets every remaining
output position to exactly 0.0. -/
theorem process_zero_fills_tail :
    ∀ (sinQ : ℚ → ℚ) (twoPi : ℚ) (lock : Option ℚ) (st : DspProcessor)
      (input output : List ℚ),
      ((DspProcessor.process sinQ twoPi lock st input output).2).length =
        output.length ∧
      ∀ i, min input.length output.length ≤ i → i < output.length →
        ((DspProcessor.process sinQ twoPi lock st input output).2)[i]? =
          some 0 := by
  intro sinQ twoPi lock st input output
  constructor
  · unfold DspProcessor.process
    rw [zeroFillFrom_length, processWriteLoop_length]
  · intro i hmin hi
    unfold DspProcessor.process
    refine zeroFillFrom_getElem? _ _ _ hmin ?_
    rw [processWriteLoop_length]
    exact hi

/-- Witness for C8: with one input sample and a three-slot output
buffer, positions 1 and 2 come out exactly 0. -/
theorem process_zero_fills_tail_witness :
    ((DspProcessor.process (fun q => q) 6 (some 1) DspProcessor.new
      [1] [2, 3, 4]).2)[2]? = some 0 :=
  (process_zero_fills_tail (fun q => q) 6 (some 1) DspProcessor.new
    [1] [2, 3, 4]).2 2 (by decide) (by decide)

/-- C9: for every non-empty buffer and non-negative read index,
`cubic_interpolated_read` accesses the buffer only at the four tap
indices reduced modulo the buffer length — all in bounds — and its value
does not depend on the out-of-bounds default, so it is total even when
the read index (e.g. 1024) exceeds the buffer length (e.g. 128). -/
theorem cubic_read_in_bounds :
    ∀ (buffer : List ℚ) (ri : ℚ), buffer ≠ [] → 0 ≤ ri →
      (∀ i ∈ cubicTaps buffer ri, i < buffer.length ∧ buffer[i]?.isSome) ∧
      ∀ d : ℚ, cubicInterpolatedReadD d buffer ri =
        DspProcessor.cubic_interpolated_read buffer ri := by
  intro buffer ri hbuf _
  have hl : 0 < buffer.length := List.length_pos.mpr hbuf
  constructor
  · intro i hi
    have him : i < buffer.length := by
      simp only [cubicTaps, List.mem_cons, List.not_mem_nil, or_false] at hi
      rcases hi with h | h | h | h <;> (subst h; exact Nat.mod_lt _ hl)
    exact ⟨him, by simp [List.getElem?_eq_getElem him]⟩
  · intro d
    have h0 : DspProcessor.cubic_interpolated_read buffer ri =
        cubicInterpolatedReadD 0 buffer ri := rfl
    rw [h0]
    simp only [cubicInterpolatedReadD, getD_mod_default buffer hbuf]

/-- Witness for C9: the initial configuration of the engine — a
128-sample buffer read at index 1024 — is in bounds at all four taps. -/
theorem cubic_read_in_bounds_witness :
    (∀ i ∈ cubicTaps (List.replicate 128 (0 : ℚ)) 1024,
      i < (List.replicate 128 (0 : ℚ)).length ∧
      (List.replicate 128 (0 : ℚ))[i]?.isSome) ∧
    ∀ d : ℚ, cubicInterpolatedReadD d (List.replicate 128 (0 : ℚ)) 1024 =
      DspProcessor.cubic_interpolated_read (List.replicate 128 (0 : ℚ)) 1024 :=
  cubic_read_in_bounds (List.replicate 128 (0 : ℚ)) 1024 (by decide)
    (by norm_num)

lemma advanced_soft_compress_nonneg_eq (u : ℚ) (hu : 0 ≤ u) :
    DspProcessor.advanced_soft_compress u =
      if u ≤ 0.6 then u else if 0.8 ≤ u then compressAbove u else compressKnee u := by
  have habs : |u| = u := abs_of_nonneg hu
  simp only [DspProcessor.advanced_soft_compress, compressAbove, compressKnee,
    habs, if_pos hu]
  norm_num

lemma compressKnee_poly (u : ℚ) :
    compressKnee u =
      0.28 * (5 * u - 3) ^ 4 - 0.56 * (5 * u - 3) ^ 3 +
        0.21 * (5 * u - 3) ^ 2 + 0.2 * (5 * u - 3) + 0.6 := by
  unfold compressKnee
  ring

lemma kneePolyMonoAux {a b : ℚ} (ha : 0 ≤ a) (hab : a ≤ b) :
    0.28 * a ^ 4 - 0.56 * a ^ 3 + 0.21 * a ^ 2 + 0.2 * a + 0.6 ≤
      0.28 * b ^ 4 - 0.56 * b ^ 3 + 0.21 * b ^ 2 + 0.2 * b + 0.6 := by
  have ha' : (0 : ℚ) ≤ b := le_trans ha hab
  have hd : (0 : ℚ) ≤ b - a := by linarith
  rcases le_or_lt (a + b) 1 with hs | hs
  · have h1s : (0 : ℚ) ≤ 1 - a - b := by linarith
    have t1 : (0 : ℚ) ≤ (b - a) * (1 - a - b) := mul_nonneg hd h1s
    have t2 : (0 : ℚ) ≤ ((b - a) * (a + b)) * (1 - a - b) ^ 2 :=
      mul_nonneg (mul_nonneg hd (add_nonneg ha ha')) (sq_nonneg _)
    have t3 : (0 : ℚ) ≤ ((b - a) * (a * b)) * (1 - a - b) :=
      mul_nonneg (mul_nonneg hd (mul_nonneg ha ha')) h1s
    have hid : (0.28 * b ^ 4 - 0.56 * b ^ 3 + 0.21 * b ^ 2 + 0.2 * b + 0.6) -
        (0.28 * a ^ 4 - 0.56 * a ^ 3 + 0.21 * a ^ 2 + 0.2 * a + 0.6) =
        0.13 * (b - a) + 0.07 * ((b - a) * (1 - a - b)) +
          0.28 * (((b - a) * (a + b)) * (1 - a - b) ^ 2) +
          0.56 * (((b - a) * (a * b)) * (1 - a - b)) := by ring
    linarith
  · have hs1 : (0 : ℚ) ≤ a + b - 1 := by linarith
    have t1 : (0 : ℚ) ≤ ((b - a) * (a - b) ^ 2) * (a + b - 1) :=
      mul_nonneg (mul_nonneg hd (sq_nonneg _)) hs1
    have t2 : (0 : ℚ) ≤ ((b - a) * (a + b - 1)) * (a + b - 1 - 7 / 10) ^ 2 :=
      mul_nonneg (mul_nonneg hd hs1) (sq_nonneg _)
    have t3 : (0 : ℚ) ≤ (b - a) * (a + b - 1 - 1393 / 1960) ^ 2 :=
      mul_nonneg hd (sq_nonneg _)
    have hid : (0.28 * b ^ 4 - 0.56 * b ^ 3 + 0.21 * b ^ 2 + 0.2 * b + 0.6) -
        (0.28 * a ^ 4 - 0.56 * a ^ 3 + 0.21 * a ^ 2 + 0.2 * a + 0.6) =
        0.14 * (((b - a) * (a - b) ^ 2) * (a + b - 1)) +
          0.14 * (((b - a) * (a + b - 1)) * (a + b - 1 - 7 / 10) ^ 2) +
          (98 / 500) * ((b - a) * (a + b - 1 - 1393 / 1960) ^ 2) +
          (607551 / 19600000) * (b - a) := by ring
    linarith

lemma compressKnee_mono {u v : ℚ} (hu : 0.6 ≤ u) (huv : u ≤ v) (hv : v ≤ 0.8) :
    compressKnee u ≤ compressKnee v := by
  rw [compressKnee_poly, compressKnee_poly]
  exact kneePolyMonoAux (by linarith) (by linarith)

lemma compressAbove_mono {u v : ℚ} (huv : u ≤ v) :
    compressAbove u ≤ compressAbove v := by
  unfold compressAbove
  nlinarith

lemma compressKnee_left : compressKnee 0.6 = 0.6 := by
  norm_num [compressKnee]

lemma compressKnee_right : compressKnee 0.8 = compressAbove 0.8 := by
  norm_num [compressKnee, compressAbove]

lemma advanced_soft_compress_mono {u v : ℚ} (hu : 0 ≤ u) (huv : u ≤ v) :
    DspProcessor.advanced_soft_compress u ≤
      DspProcessor.advanced_soft_compress v := by
  have hv : (0 : ℚ) ≤ v := le_trans hu huv
  rw [advanced_soft_compress_nonneg_eq u hu, advanced_soft_compress_nonneg_eq v hv]
  split_ifs with h1 h2 h3 h4 h5 h6 h7 h8
  · exact huv
  · -- u below the knee, v above the knee
    calc u ≤ 0.6 := h1
    _ = compressKnee 0.6 := compressKnee_left.symm
    _ ≤ compressKnee 0.8 := compressKnee_mono le_rfl (by norm_num) le_rfl
    _ = compressAbove 0.8 := compressKnee_right
    _ ≤ compressAbove v := compressAbove_mono h3
  · -- u below the knee, v inside the knee
    push_neg at h2 h3
    calc u ≤ 0.6 := h1
    _ = compressKnee 0.6 := compressKnee_left.symm
    _ ≤ compressKnee v := compressKnee_mono le_rfl (by linarith) (by linarith)
  · -- 0.8 ≤ u together with v ≤ 0.6 contradicts u ≤ v
    exact absurd (le_trans h4 (le_trans huv h5)) (by norm_num)
  · exact compressAbove_mono huv
  · -- 0.8 ≤ u together with v < 0.8 contradicts u ≤ v
    exact absurd (le_trans h4 huv) h6
  · -- 0.6 < u together with v ≤ 0.6 contradicts u ≤ v
    exact absurd (le_trans huv h7) h1
  · -- u inside the knee, v above the knee
    push_neg at h1 h4
    calc compressKnee u ≤ compressKnee 0.8 :=
      compressKnee_mono (by linarith) (by linarith) le_rfl
    _ = compressAbove 0.8 := compressKnee_right
    _ ≤ compressAbove v := compressAbove_mono h8
  · push_neg at h1 h4 h8
    exact compressKnee_mono (by linarith) huv (by linarith)

/-- C5: the soft-knee compressor (T = 0.7, R = 0.3, W = 0.1) passes
|x| ≤ T−W through unchanged, maps |x| ≥ T+W to sign(x)·(T+(|x|−T)·R),
uses the smoothstep-interpolated ratio inside the knee, agrees with the
adjacent branches at both knee boundaries (continuity), and is
monotonically non-decreasing in |x|. -/
theorem compressor_knee_continuous_monotone :
    (∀ x : ℚ, |x| ≤ 0.7 - 0.1 → DspProcessor.advanced_soft_compress x = x) ∧
    (∀ x : ℚ, 0.7 + 0.1 ≤ |x| → DspProcessor.advanced_soft_compress x =
      (if 0 ≤ x then 1 else -1) * (0.7 + (|x| - 0.7) * 0.3)) ∧
    (∀ x : ℚ, 0.7 - 0.1 < |x| → |x| < 0.7 + 0.1 →
      DspProcessor.advanced_soft_compress x =
        (if 0 ≤ x then 1 else -1) * compressKnee |x|) ∧
    compressKnee 0.6 = 0.6 ∧
    compressKnee 0.8 = compressAbove 0.8 ∧
    (∀ u v : ℚ, 0 ≤ u → u ≤ v →
      DspProcessor.advanced_soft_compress u ≤
        DspProcessor.advanced_soft_compress v) := by
  refine ⟨?_, ?_, ?_, compressKnee_left, compressKnee_right,
    fun u v hu huv => advanced_soft_compress_mono hu huv⟩
  · intro x hx
    simp only [DspProcessor.advanced_soft_compress]
    rw [if_pos hx]
  · intro x hx
    simp only [DspProcessor.advanced_soft_compress]
    rw [if_neg (by push_neg; linarith), if_pos hx]
  · intro x hx1 hx2
    simp only [DspProcessor.advanced_soft_compress, compressKnee]
    rw [if_neg (by push_neg; linarith), if_neg (by push_neg; linarith)]

/-- Witness for C5: the compressor at 0.5 (pass-through), at 1.0
(hard-ratio branch: 0.79), and monotone between 0.5 and 1.0. -/
theorem compressor_knee_continuous_monotone_witness :
    DspProcessor.advanced_soft_compress 0.5 = 0.5 ∧
    DspProcessor.advanced_soft_compress 1 =
      (if (0 : ℚ) ≤ 1 then 1 else -1) * (0.7 + (|(1 : ℚ)| - 0.7) * 0.3) ∧
    DspProcessor.advanced_soft_compress 0.5 ≤
      DspProcessor.advanced_soft_compress 1 :=
  ⟨compressor_knee_continuous_monotone.1 0.5 (by
      rw [abs_of_nonneg (by norm_num : (0 : ℚ) ≤ 0.5)]; norm_num),
   compressor_knee_continuous_monotone.2.1 1 (by norm_num),
   compressor_knee_continuous_monotone.2.2.2.2.2 0.5 1 (by norm_num)
     (by norm_num)⟩

lemma toFrames_getElem? (c : ℕ) (hc : 0 < c) :
    ∀ (i : ℕ) (data : List ℚ),
    (toFrames c data)[i]? =
      if c * i < data.length then some ((data.drop (c * i)).take c) else none
  | 0, data => by
    rw [toFrames]
    by_cases hd : data = []
    · subst hd
      simp
    · rw [dif_neg (by push_neg; exact ⟨Nat.pos_iff_ne_zero.mp hc, hd⟩)]
      have hlen : 0 < data.length := List.length_pos.mpr hd
      simp [hlen]
  | (n + 1), data => by
    rw [toFrames]
    by_cases hd : data = []
    · subst hd
      simp
    · rw [dif_neg (by push_neg; exact ⟨Nat.pos_iff_ne_zero.mp hc, hd⟩)]
      have h1 : (data.take c :: toFrames c (data.drop c))[n + 1]? =
          (toFrames c (data.drop c))[n]? := List.getElem?_cons_succ
      rw [h1, toFrames_getElem? c hc n (data.drop c)]
      have h2 : (data.drop c).length = data.length - c := List.length_drop c data
      have h3 : (data.drop c).drop (c * n) = data.drop (c * (n + 1)) := by
        rw [List.drop_drop]
        congr 1
        ring
      have hmul : c * (n + 1) = c * n + c := by ring
      rw [h2, h3, hmul]
      generalize c * n = m
      by_cases hx : m + c < data.length
      · rw [if_pos (by omega), if_pos hx]
      · rw [if_neg (by omega), if_neg hx]

lemma toFrames_ne_nil (c : ℕ) (hc : 0 < c) (data : List ℚ) :
    ∀ f ∈ toFrames c data, f ≠ [] := by
  intro f hf
  obtain ⟨i, hi⟩ := List.mem_iff_getElem?.mp hf
  rw [toFrames_getElem? c hc i data] at hi
  by_cases hlt : c * i < data.length
  · rw [if_pos hlt] at hi
    have := Option.some.inj hi
    subst this
    intro hcon
    have := congrArg List.length hcon
    simp [List.length_take, List.length_drop] at this
    omega
  · rw [if_neg hlt] at hi
    exact absurd hi (by simp)

lemma captureCallback_getElem? (c : ℕ) (hc : 0 < c) (data : List ℚ) (i : ℕ) :
    (captureCallback c data)[i]? =
      if c * i < data.length then
        some (downmixFrame c ((data.drop (c * i)).take c))
      else none := by
  unfold captureCallback
  rw [List.filter_eq_self.mpr (fun f hf => by
    simpa using toFrames_ne_nil c hc data f hf)]
  rw [List.getElem?_map, toFrames_getElem? c hc i data]
  by_cases hlt : c * i < data.length <;> simp [hlt]

lemma trySend_foldl (cap : ℕ) :
    ∀ (blocks : List (List ℚ)) (q : List (List ℚ)), q.length ≤ cap →
    List.foldl (trySend cap) q blocks = q ++ blocks.take (cap - q.length)
  | [], q, _ => by simp
  | x :: rest, q, h => by
    rw [List.foldl_cons]
    by_cases hlt : q.length < cap
    · rw [show trySend cap q x = q ++ [x] from if_pos hlt]
      rw [trySend_foldl cap rest (q ++ [x]) (by simpa using hlt)]
      have hsucc : cap - q.length = (cap - (q.length + 1)) + 1 := by omega
      rw [hsucc, List.take_succ_cons]
      simp
    · have heq : q.length = cap := le_antisymm h (not_lt.mp hlt)
      rw [show trySend cap q x = q from if_neg hlt]
      rw [trySend_foldl cap rest q h]
      simp [heq]

/-- C7: the capture callback downmixes to mono — averaging the two
samples of each frame when the channel count is exactly two, passing the
first channel's sample through otherwise — and the bounded bridge
channel with try-send semantics keeps exactly the oldest `capacity`
blocks, in FIFO order, when overfilled. -/
theorem capture_downmix_and_drop_newest :
    (∀ (data : List ℚ) (i : ℕ), 2 * i + 1 < data.length →
      (captureCallback 2 data)[i]? =
        some ((data.getD (2 * i) 0 + data.getD (2 * i + 1) 0) * 0.5)) ∧
    (∀ (c : ℕ) (data : List ℚ) (i : ℕ), 0 < c → c ≠ 2 → c * i < data.length →
      (captureCallback c data)[i]? = some (data.getD (c * i) 0)) ∧
    (∀ (cap : ℕ) (blocks : List (List ℚ)),
      List.foldl (trySend cap) [] blocks = blocks.take cap) := by
  refine ⟨?_, ?_, ?_⟩
  · intro data i hi
    rw [captureCallback_getElem? 2 (by norm_num) data i,
      if_pos (by omega)]
    have hfl : 2 ≤ ((data.drop (2 * i)).take 2).length := by
      simp [List.length_take, List.length_drop]
      omega
    rw [show downmixFrame 2 ((data.drop (2 * i)).take 2) =
        (((data.drop (2 * i)).take 2).getD 0 0 +
          ((data.drop (2 * i)).take 2).getD 1 0) * 0.5 from
      if_pos ⟨rfl, hfl⟩]
    have h0 : ((data.drop (2 * i)).take 2).getD 0 0 = data.getD (2 * i) 0 := by
      simp [List.getD_eq_getElem?_getD, List.getElem?_take, List.getElem?_drop]
    have h1 : ((data.drop (2 * i)).take 2).getD 1 0 = data.getD (2 * i + 1) 0 := by
      simp [List.getD_eq_getElem?_getD, List.getElem?_take, List.getElem?_drop]
    rw [h0, h1]
  · intro c data i hc hc2 hlt
    rw [captureCallback_getElem? c hc data i, if_pos hlt]
    rw [show downmixFrame c ((data.drop (c * i)).take c) =
        ((data.drop (c * i)).take c).getD 0 0 from
      if_neg (fun hcon => hc2 hcon.1)]
    simp [List.getD_eq_getElem?_getD, List.getElem?_take, List.getElem?_drop,
      hc]
  · intro cap blocks
    rw [trySend_foldl cap blocks [] (by simp)]
    simp

/-- Witness for C7: a four-sample stereo block downmixes to frame
averages, a three-channel block passes channel 0 through, and a
five-block burst into the capacity-4 bridge keeps the oldest four. -/
theorem capture_downmix_and_drop_newest_witness :
    (captureCallback 2 [1, 3, 5, 7])[1]? =
      some (([(1 : ℚ), 3, 5, 7].getD 2 0 + [(1 : ℚ), 3, 5, 7].getD 3 0) * 0.5) ∧
    (captureCallback 3 [1, 3, 5, 7, 9, 11])[1]? =
      some ([(1 : ℚ), 3, 5, 7, 9, 11].getD 3 0) ∧
    List.foldl (trySend 4) [] [[1], [2], [3], [4], [5]] =
      [[(1 : ℚ)], [2], [3], [4], [5]].take 4 :=
  ⟨capture_downmix_and_drop_newest.1 [1, 3, 5, 7] 1 (by norm_num),
   capture_downmix_and_drop_newest.2.1 3 [1, 3, 5, 7, 9, 11] 1 (by norm_num)
     (by norm_num) (by norm_num),
   capture_downmix_and_drop_newest.2.2 4 [[1], [2], [3], [4], [5]]⟩

lemma delayRun_spec (ds : ℕ) :
    ∀ (input : List ℚ) (q : List ℚ), q.length ≤ ds →
    (delayRun ds q input).2 =
      List.replicate (min (ds - q.length) input.length) 0 ++
        (q ++ input).take (input.length - (ds - q.length))
  | [], q, _ => by simp [delayRun]
  | x :: rest, q, h => by
    rw [delayRun]
    by_cases hc : ds < (q ++ [x]).length
    · have hqd : q.length = ds := by
        simp only [List.length_append, List.length_singleton] at hc
        omega
      simp only [delayStep, if_pos hc]
      rw [delayRun_spec ds rest (q ++ [x]).tail (by
        simp [List.length_tail]
        omega)]
      have htl : (q ++ [x]).tail.length = ds := by
        simp [List.length_tail]
        omega
      have hq0 : ds - q.length = 0 := by omega
      rw [htl, Nat.sub_self, hq0]
      simp only [Nat.zero_min, Nat.min_comm, List.replicate_zero,
        List.nil_append, Nat.sub_zero, List.length_cons]
      cases hA : q ++ [x] with
      | nil => exact absurd (congrArg List.length hA) (by simp)
      | cons hd tl =>
        have hcons : q ++ x :: rest = hd :: (tl ++ rest) := by
          rw [show q ++ x :: rest = (q ++ [x]) ++ rest by simp, hA]
          rfl
        rw [hcons]
        simp [List.take_succ_cons]
    · have hlen : q.length + 1 ≤ ds := by
        simp only [List.length_append, List.length_singleton] at hc
        omega
      simp only [delayStep, if_neg hc]
      rw [delayRun_spec ds rest (q ++ [x]) (by simpa using hlen)]
      have hmin : min (ds - q.length) (rest.length + 1) =
          min (ds - (q ++ [x]).length) rest.length + 1 := by
        simp only [List.length_append, List.length_singleton]
        omega
      have htake : rest.length - (ds - (q ++ [x]).length) =
          (rest.length + 1) - (ds - q.length) := by
        simp only [List.length_append, List.length_singleton]
        omega
      have hcons : q ++ x :: rest = (q ++ [x]) ++ rest := by simp
      rw [htake] at *
      simp only [List.length_cons, hmin, List.replicate_succ, hcons]
      simp [htake]

/-- C4 (amended): the delay length in samples is
`min (trunc (D * R / 1000)) capacity` (the source truncates the product
rather than taking its ceiling); starting from an empty delay line the
first `min delay_samples N` emitted samples are exactly 0.0 and the
buffered samples then emerge in strict FIFO order
(`output (delay_samples + k) = input k`); with delay_ms = 50 and
sample_rate = 44100 the delay is exactly 2205 samples, so the first 2205
emitted samples are exactly 0.0. -/
theorem delay_line_silence_then_fifo :
    (∀ (delay_ms : ℚ) (sample_rate cap : ℕ) (input : List ℚ),
      (delayRun (delaySamplesOf delay_ms sample_rate cap) [] input).2 =
        List.replicate
            (min (delaySamplesOf delay_ms sample_rate cap) input.length) 0 ++
          input.take
            (input.length - delaySamplesOf delay_ms sample_rate cap)) ∧
    (∀ (ds : ℕ) (input : List ℚ) (k : ℕ), ds + k < input.length →
      (delayRun ds [] input).2[ds + k]? = input[k]?) ∧
    delaySamplesOf 50 44100 (maxDelaySamples 44100) = 2205 ∧
    maxDelaySamples 44100 = 4410 := by
  have hgen : ∀ (ds : ℕ) (input : List ℚ),
      (delayRun ds [] input).2 =
        List.replicate (min ds input.length) 0 ++
          input.take (input.length - ds) := by
    intro ds input
    rw [delayRun_spec ds input [] (by simp)]
    simp
  refine ⟨fun d r c input => hgen _ input, ?_, ?_, ?_⟩
  · intro ds input k hk
    rw [hgen ds input]
    have hds : ds ≤ input.length := by omega
    rw [List.getElem?_append_right (by rw [List.length_replicate]; omega)]
    have hidx : ds + k -
        (List.replicate (min ds input.length) (0 : ℚ)).length = k := by
      rw [List.length_replicate]
      omega
    rw [hidx, List.getElem?_take, if_pos (by omega)]
  · norm_num [delaySamplesOf, maxDelaySamples]
    rfl
  · norm_num [maxDelaySamples]
    rfl

/-- Witness for C4: a 2-sample delay line; the third emitted sample is
the first input sample. -/
theorem delay_line_silence_then_fifo_witness :
    (delayRun 2 [] [10, 20, 30]).2[2 + 0]? = [(10 : ℚ), 20, 30][0]? :=
  delay_line_silence_then_fifo.2.1 2 [10, 20, 30] 0 (by decide)

/-- Counterexample for C4 as stated: the claim promises the first
`ceil (D * R / 1000)` emitted samples are 0.0, but the source truncates:
with D = 1 ms and R = 44100 Hz, `ceil (44.1) = 45` yet the 45th emitted
sample (index 44) of an all-ones input is 1, not 0. -/
theorem delay_line_ceil_counterexample :
    Nat.ceil ((1 : ℚ) * 44100 / 1000) = 45 ∧
    (delayRun (delaySamplesOf 1 44100 (maxDelaySamples 44100)) []
      (List.replicate 45 1)).2[44]? = some 1 := by
  constructor
  · rw [show (1 : ℚ) * 44100 / 1000 = 441 / 10 by norm_num]
    rw [Nat.ceil_eq_iff (by norm_num)]
    constructor <;> norm_num
  · have hds : delaySamplesOf 1 44100 (maxDelaySamples 44100) = 44 := by
      norm_num [delaySamplesOf, maxDelaySamples]
      rfl
    rw [hds, delayRun_spec 44 (List.replicate 45 1) [] (by simp)]
    simp [List.getElem?_append_right]

/-- C6: the configured delay length is always capped at the delay
line's fixed capacity, and a push/pop iteration keeps the deque length
within that capacity (hence, by induction over the block, so does a
whole render period). -/
theorem delay_capacity_never_exceeded :
    (∀ (delay_ms : ℚ) (sample_rate : ℕ),
      delaySamplesOf delay_ms sample_rate (maxDelaySamples sample_rate) ≤
        maxDelaySamples sample_rate) ∧
    (∀ (ds cap : ℕ) (q : List ℚ) (x : ℚ), ds ≤ cap → q.length ≤ cap →
      ((delayStep ds q x).1).length ≤ cap) ∧
    (∀ (ds cap : ℕ) (input : List ℚ) (q : List ℚ), ds ≤ cap → q.length ≤ cap →
      ((delayRun ds q input).1).length ≤ cap) := by
  have hstep : ∀ (ds cap : ℕ) (q : List ℚ) (x : ℚ), ds ≤ cap →
      q.length ≤ cap → ((delayStep ds q x).1).length ≤ cap := by
    intro ds cap q x hdc hq
    unfold delayStep
    by_cases h : ds < (q ++ [x]).length
    · rw [if_pos h]
      simp [List.length_tail]
      omega
    · rw [if_neg h]
      simp only [List.length_append, List.length_singleton]
      simp only [not_lt, List.length_append, List.length_singleton] at h
      omega
  have hrun : ∀ (ds cap : ℕ) (input : List ℚ) (q : List ℚ), ds ≤ cap →
      q.length ≤ cap → ((delayRun ds q input).1).length ≤ cap := by
    intro ds cap input
    induction input with
    | nil => intro q _ hq; exact hq
    | cons x rest ih =>
      intro q hdc hq
      rw [delayRun]
      exact ih (delayStep ds q x).1 hdc (hstep ds cap q x hdc hq)
  exact ⟨fun d r => min_le_right _ _, hstep, hrun⟩

/-- Witness for C6: one push/pop iteration on a full 3-slot line with
delay 3 stays within capacity 3. -/
theorem delay_capacity_never_exceeded_witness :
    ((delayStep 3 [1, 2, 3] 4).1).length ≤ 3 ∧
    ((delayRun 3 [1, 2, 3] [7, 8]).1).length ≤ 3 :=
  ⟨delay_capacity_never_exceeded.2.1 3 3 [1, 2, 3] 4 (by decide) (by decide),
   delay_capacity_never_exceeded.2.2 3 3 [7, 8] [1, 2, 3] (by decide)
     (by decide)⟩

/-- C10: each push/pop iteration of an input-fed render period pushes
one sample and pops at most one, so the deque length never decreases
within such a period (per step and over the whole block); a drain
iteration (no-input period) never pushes and strictly shrinks the deque
exactly when its length exceeds the configured delay — so excess
buffered samples are drained only during no-input periods. -/
theorem delay_deque_monotone_growth :
    (∀ (ds : ℕ) (q : List ℚ) (x : ℚ),
      q.length ≤ ((delayStep ds q x).1).length ∧
      ((delayStep ds q x).1).length ≤ q.length + 1) ∧
    (∀ (ds : ℕ) (input : List ℚ) (q : List ℚ),
      q.length ≤ ((delayRun ds q input).1).length) ∧
    (∀ (ds : ℕ) (q : List ℚ),
      ((drainStep ds q).1).length ≤ q.length ∧
      (ds < q.length → ((drainStep ds q).1).length + 1 = q.length)) := by
  have hstep : ∀ (ds : ℕ) (q : List ℚ) (x : ℚ),
      q.length ≤ ((delayStep ds q x).1).length ∧
      ((delayStep ds q x).1).length ≤ q.length + 1 := by
    intro ds q x
    unfold delayStep
    by_cases h : ds < (q ++ [x]).length
    · rw [if_pos h]
      simp [List.length_tail]
    · rw [if_neg h]
      simp
  refine ⟨hstep, ?_, ?_⟩
  · intro ds input
    induction input with
    | nil => intro q; exact le_refl _
    | cons x rest ih =>
      intro q
      rw [delayRun]
      exact le_trans (hstep ds q x).1 (ih (delayStep ds q x).1)
  · intro ds q
    unfold drainStep
    by_cases h : ds < q.length
    · rw [if_pos h]
      constructor
      · simp [List.length_tail]
      · intro _
        simp [List.length_tail]
        omega
    · rw [if_neg h]
      exact ⟨le_refl _, fun hcon => absurd hcon h⟩

/-- Witness for C10: a drain step on a 3-deep line with delay 1 pops
exactly one sample. -/
theorem delay_deque_monotone_growth_witness :
    ((drainStep 1 [1, 2, 3]).1).length + 1 = 3 :=
  (delay_deque_monotone_growth.2.2 1 [1, 2, 3]).2 (by decide)

/-- Counterexample for C1 as stated: when the settings record cannot be
acquired (`settingsLock = none`), the render callback does not populate
the output block at all — the block comes back exactly as it went in, so
its contents still depend on whatever the backend left there
(here: a block holding 5 versus a block holding 7), contradicting
"fully populates every position with signal or silence". -/
theorem render_lock_failure_counterexample :
    (renderCallback (fun q => q) 6 44100 4410 none true (some [1])
      ⟨DspProcessor.new, [], 1⟩ [5]).2 = [5] ∧
    (renderCallback (fun q => q) 6 44100 4410 none true (some [1])
      ⟨DspProcessor.new, [], 1⟩ [7]).2 = [7] :=
  ⟨rfl, rfl⟩

/-- C1 (amended): for every render-callback invocation in which the
settings record cannot be acquired immediately, the session skips the
entire period — it returns at once with the session state and the output
block untouched (no snapshot reuse, no writes). -/
theorem render_lock_failure_skips_period :
    ∀ (sinQ : ℚ → ℚ) (twoPi : ℚ) (sample_rate max_delay : ℕ)
      (pitchLockOk : Bool) (rx : Option (List ℚ)) (st : SessionState)
      (output : List ℚ),
      renderCallback sinQ twoPi sample_rate max_delay none pitchLockOk rx
        st output = (st, output) :=
  fun _ _ _ _ _ _ _ _ => rfl

lemma readTargetPitch_bounds (lock : Option ℚ) :
    1 / 2 ≤ readTargetPitch lock ∧ readTargetPitch lock ≤ 2 := by
  cases lock with
  | none => norm_num [readTargetPitch]
  | some p =>
    have h : readTargetPitch (some p) = rustClamp p 0.5 2.0 := rfl
    rw [h]
    unfold rustClamp
    split_ifs with h1 h2
    · norm_num
    · norm_num
    · norm_num at h1 h2 ⊢
      exact ⟨by linarith, by linarith⟩

lemma cubic_read_shift (buf : List ℚ) (hlen : buf.length = 128) (a : ℚ)
    (ha : 0 ≤ a) (k : ℕ) :
    DspProcessor.cubic_interpolated_read buf (a + 128 * k) =
      DspProcessor.cubic_interpolated_read buf a := by
  have hcast : (128 : ℚ) * k = ((128 * k : ℕ) : ℚ) := by push_cast; ring
  have hfloor : ⌊a + 128 * k⌋ = ⌊a⌋ + (128 * k : ℕ) := by
    rw [hcast]
    exact Int.floor_add_nat a (128 * k)
  have hfl0 : 0 ≤ ⌊a⌋ := Int.floor_nonneg.mpr ha
  have htoNat : (⌊a + 128 * k⌋).toNat = ⌊a⌋.toNat + 128 * k := by
    rw [hfloor]
    omega
  have hfrac : (a + 128 * k) - (⌊a + 128 * k⌋ : ℚ) = a - (⌊a⌋ : ℚ) := by
    rw [hfloor]
    push_cast
    ring
  simp only [DspProcessor.cubic_interpolated_read, cubicInterpolatedReadD]
  rw [htoNat, hfrac, hlen]
  have h0 : (⌊a⌋.toNat + 128 * k + 128 - 1) % 128 =
      (⌊a⌋.toNat + 128 - 1) % 128 := by omega
  have h1 : (⌊a⌋.toNat + 128 * k) % 128 = ⌊a⌋.toNat % 128 := by omega
  have h2 : (⌊a⌋.toNat + 128 * k + 1) % 128 = (⌊a⌋.toNat + 1) % 128 := by
    omega
  have h3 : (⌊a⌋.toNat + 128 * k + 2) % 128 = (⌊a⌋.toNat + 2) % 128 := by
    omega
  rw [h0, h1, h2, h3]

lemma processOneSample_phaseLocked (sinQ : ℚ → ℚ) (twoPi : ℚ)
    (st : DspProcessor) (x : ℚ) (hpl : phaseLocked st)
    (ht1 : 1 / 2 ≤ st.target_pitch) (ht2 : st.target_pitch ≤ 2) :
    phaseLocked (DspProcessor.processOneSample sinQ twoPi st x).1 := by
  obtain ⟨hbuf, hlen, ha, ⟨k, hk⟩, hp1, hp2⟩ := hpl
  have hlenB : st.ring_buffer_b.length = 128 := by rw [← hbuf]; exact hlen
  -- the smoothed pitch stays inside [1/2, 2]
  have hcp1 : 1 / 2 ≤ st.current_pitch + (st.target_pitch - st.current_pitch) * 0.01 := by
    nlinarith
  have hcp2 : st.current_pitch + (st.target_pitch - st.current_pitch) * 0.01 ≤ 2 := by
    nlinarith
  have hcp0 : 0 < st.current_pitch + (st.target_pitch - st.current_pitch) * 0.01 := by
    linarith
  -- the read step is positive
  have hstep : 0 < 1 / (st.current_pitch + (st.target_pitch - st.current_pitch) * 0.01) :=
    by positivity
  simp only [DspProcessor.processOneSample, DspProcessor.multi_stage_filter,
    DspProcessor.dc_blocking_filter, phaseLocked]
  rw [hbuf]
  refine ⟨rfl, by simp [List.length_set, hlenB], ?_, ?_, hcp1, hcp2⟩
  · -- the wrapped A cursor stays non-negative
    simp only [List.length_set, hlenB, hlen]
    split_ifs with h
    · push_cast at h ⊢
      linarith
    · linarith
  · -- the cursor difference stays an exact natural multiple of 128
    simp only [List.length_set, hlenB, hlen, hk]
    rcases Nat.eq_zero_or_pos k with hk0 | hkpos
    · subst hk0
      simp only [Nat.cast_zero, mul_zero, add_zero]
      split_ifs with h1
      · exact ⟨0, by push_cast; ring⟩
      · exact ⟨0, by push_cast; ring⟩
    · have hbig : (128 : ℚ) ≤ st.read_index_a + 128 * k +
          1 / (st.current_pitch + (st.target_pitch - st.current_pitch) * 0.01) := by
        have : (128 : ℚ) * 1 ≤ 128 * k := by
          have : (1 : ℚ) ≤ k := by exact_mod_cast hkpos
          nlinarith
        linarith
      rw [if_pos (by push_cast; push_cast at hbig; linarith)]
      split_ifs with h1
      · -- A also wraps: the multiple k is preserved
        refine ⟨k, by push_cast; ring⟩
      · -- A does not wrap: the multiple drops to k - 1
        refine ⟨k - 1, ?_⟩
        have : ((k - 1 : ℕ) : ℚ) = (k : ℚ) - 1 := by
          have : (1 : ℚ) ≤ k := by exact_mod_cast hkpos
          push_cast [Nat.cast_sub hkpos]
          ring
        rw [this]
        push_cast
        ring

lemma phaseLocked_reads_equal (st : DspProcessor) (hpl : phaseLocked st) :
    DspProcessor.cubic_interpolated_read st.ring_buffer_a st.read_index_a =
      DspProcessor.cubic_interpolated_read st.ring_buffer_b st.read_index_b := by
  obtain ⟨hbuf, hlen, ha, ⟨k, hk⟩, _, _⟩ := hpl
  rw [← hbuf, hk]
  exact (cubic_read_shift st.ring_buffer_a hlen st.read_index_a ha k).symm

lemma processOneSample_phaseLocked_target (sinQ : ℚ → ℚ) (twoPi : ℚ)
    (st : DspProcessor) (x : ℚ) :
    ((DspProcessor.processOneSample sinQ twoPi st x).1).target_pitch =
      st.target_pitch :=
  processOneSample_target_pitch sinQ twoPi st x

lemma processWriteLoop_phaseLocked (sinQ : ℚ → ℚ) (twoPi : ℚ) :
    ∀ (input : List ℚ) (st : DspProcessor) (i : ℕ) (out : List ℚ),
    phaseLocked st → 1 / 2 ≤ st.target_pitch → st.target_pitch ≤ 2 →
    phaseLocked (processWriteLoop sinQ twoPi st input i out).1
  | [], _, _, _ => fun h _ _ => h
  | x :: rest, st, i, out => fun h ht1 ht2 => by
    rw [processWriteLoop]
    exact processWriteLoop_phaseLocked sinQ twoPi rest
      (DspProcessor.processOneSample sinQ twoPi st x).1 (i + 1)
      (out.set i (DspProcessor.processOneSample sinQ twoPi st x).2)
      (processOneSample_phaseLocked sinQ twoPi st x h ht1 ht2)
      (by rw [processOneSample_phaseLocked_target]; exact ht1)
      (by rw [processOneSample_phaseLocked_target]; exact ht2)

/-- C2 is false on this code: 1024 ≡ 0 (mod 128), so the two read
cursors of the freshly constructed engine sit at the same phase and stay
phase-locked through every processing step; both interpolated taps
always read the same cells of identical buffers, so the crossfade mixes
two equal samples — it degenerates to a single tap.  This theorem
records the code's actual behaviour at the failing configuration:
(1) the initial state is phase-locked; (2) 1024 mod 128 = 0;
(3) `process` preserves the phase lock; (4) at any phase-locked state
the two interpolated reads return the same value; (5) after each
per-sample step the two taps just read (the step reads at exactly the
post-step cursors and buffers) are equal. -/
theorem crossfade_degenerates_to_single_tap :
    phaseLocked DspProcessor.new ∧
    (1024 : ℕ) % 128 = 0 ∧
    (∀ (sinQ : ℚ → ℚ) (twoPi : ℚ) (lock : Option ℚ) (st : DspProcessor)
       (input output : List ℚ), phaseLocked st →
       phaseLocked (DspProcessor.process sinQ twoPi lock st input output).1) ∧
    (∀ st : DspProcessor, phaseLocked st →
       DspProcessor.cubic_interpolated_read st.ring_buffer_a st.read_index_a =
         DspProcessor.cubic_interpolated_read st.ring_buffer_b
           st.read_index_b) ∧
    (∀ (sinQ : ℚ → ℚ) (twoPi : ℚ) (st : DspProcessor) (x : ℚ),
       phaseLocked st → 1 / 2 ≤ st.target_pitch → st.target_pitch ≤ 2 →
       DspProcessor.cubic_interpolated_read
           ((DspProcessor.processOneSample sinQ twoPi st x).1).ring_buffer_a
           ((DspProcessor.processOneSample sinQ twoPi st x).1).read_index_a =
         DspProcessor.cubic_interpolated_read
           ((DspProcessor.processOneSample sinQ twoPi st x).1).ring_buffer_b
           ((DspProcessor.processOneSample sinQ twoPi st x).1).read_index_b) := by
  refine ⟨⟨rfl, by simp [DspProcessor.new], le_refl 0,
    ⟨8, by norm_num [DspProcessor.new]⟩, by norm_num [DspProcessor.new],
    by norm_num [DspProcessor.new]⟩, rfl, ?_, phaseLocked_reads_equal, ?_⟩
  · intro sinQ twoPi lock st input output hpl
    unfold DspProcessor.process
    refine processWriteLoop_phaseLocked sinQ twoPi _ _ _ _ hpl ?_ ?_
    · exact (readTargetPitch_bounds lock).1
    · exact (readTargetPitch_bounds lock).2
  · intro sinQ twoPi st x hpl ht1 ht2
    exact phaseLocked_reads_equal _
      (processOneSample_phaseLocked sinQ twoPi st x hpl ht1 ht2)

/-- Witness for the C2 theorem: at the engine's initial state the two
interpolated reads coincide. -/
theorem crossfade_degenerates_to_single_tap_witness :
    DspProcessor.cubic_interpolated_read DspProcessor.new.ring_buffer_a
        DspProcessor.new.read_index_a =
      DspProcessor.cubic_interpolated_read DspProcessor.new.ring_buffer_b
        DspProcessor.new.read_index_b :=
  crossfade_degenerates_to_single_tap.2.2.2.1 DspProcessor.new
    ⟨rfl, by simp [DspProcessor.new], le_refl 0,
     ⟨8, by norm_num [DspProcessor.new]⟩, by norm_num [DspProcessor.new],
     by norm_num [DspProcessor.new]⟩

end Montage
